import Mathlib

/-!
Verification of the youdb hashmap / sorted-set layer (src/youdb.go).

The embedding models the underlying ordered transactional engine (bolt) the
way the specification describes it: a store is a finite association of
bucket names to buckets, a bucket is a key-ordered association list of
byte-string keys to byte-string values, and each youdb call is one atomic
transaction (an error return aborts the transaction, leaving the store
unchanged).  Byte strings are lists of naturals (Go bytes are always below
256; values produced by the score codec are proved to be in range where it
matters).  Go panics (out-of-range slice indexing, nil dereference) are
modelled by an `Option` result, `none` standing for the panic.
-/

deriving instance DecidableEq for Except

/-- A byte string: Go `[]byte`. -/
abbrev Bytes := List Nat

/-- Go `bytes.Compare`: lexicographic comparison, shorter prefix first.
Returns -1, 0 or 1. -/
def bcompare : Bytes → Bytes → Int
  | [], [] => 0
  | [], _ :: _ => -1
  | _ :: _, [] => 1
  | x :: xs, y :: ys =>
    if x < y then -1 else if y < x then 1 else bcompare xs ys

/-- Go `Bconcat` (src/youdb.go:722): ordered concatenation of byte slices. -/
def Bconcat : List Bytes → Bytes
  | [] => []
  | s :: rest => s ++ Bconcat rest

/-- Constant `scoreMin` (src/youdb.go:23). -/
def scoreMin : Nat := 0

/-- Constant `scoreMax` (src/youdb.go:24): 2^64 - 1. -/
def scoreMax : Nat := 18446744073709551615

/-- The modulus of Go `uint64` arithmetic. -/
def w64 : Nat := 18446744073709551616

/-- Go `uint64` subtraction `a - b` with wraparound (operands below `w64`). -/
def goSub (a b : Nat) : Nat := (a + (w64 - b % w64)) % w64

/-- Bucket-name prefix `hashPrefix = []byte{30}` (src/youdb.go:28). -/
def hashPrefix : Bytes := [30]

/-- Bucket-name prefix `zetKeyPrefix = []byte{31}` (src/youdb.go:29). -/
def zetKeyPrefix : Bytes := [31]

/-- Bucket-name prefix `zetScorePrefix = []byte{29}` (src/youdb.go:30). -/
def zetScorePrefix : Bytes := [29]

/-- Name of the `hash:<name>` bucket. -/
def hashName (name : Bytes) : Bytes := Bconcat [hashPrefix, name]

/-- Name of the `zkey:<name>` (score index) bucket. -/
def zkeyName (name : Bytes) : Bytes := Bconcat [zetKeyPrefix, name]

/-- Name of the `zscore:<name>` (member index) bucket. -/
def zscoreName (name : Bytes) : Bytes := Bconcat [zetScorePrefix, name]

/-- Go `I2b` (src/youdb.go:757): 8-byte big-endian encoding of a `uint64`
(`binary.BigEndian.PutUint64`; `byte(v >> s)` truncates modulo 256). -/
def I2b (v : Nat) : Bytes :=
  [v / 2 ^ 56 % 256, v / 2 ^ 48 % 256, v / 2 ^ 40 % 256, v / 2 ^ 32 % 256,
   v / 2 ^ 24 % 256, v / 2 ^ 16 % 256, v / 2 ^ 8 % 256, v % 256]

/-- Go `B2i` (src/youdb.go:765): `binary.BigEndian.Uint64`.  The Go function
indexes `v[0] .. v[7]` and therefore panics (bounds check) when the input has
fewer than 8 bytes; the panic is modelled as `none`. -/
def B2i (v : Bytes) : Option Nat :=
  match v with
  | b0 :: b1 :: b2 :: b3 :: b4 :: b5 :: b6 :: b7 :: _ =>
    some (b0 * 2 ^ 56 + b1 * 2 ^ 48 + b2 * 2 ^ 40 + b3 * 2 ^ 32 +
          b4 * 2 ^ 24 + b5 * 2 ^ 16 + b6 * 2 ^ 8 + b7)
  | _ => none

/-- A bucket: the engine's ordered key space, kept as an association list
strictly ascending in `bcompare` key order (the B+tree order). -/
abbrev Bucket := List (Bytes × Bytes)

/-- Engine point lookup `bucket.Get(key)` (`none` is Go `nil`). -/
def bget : Bucket → Bytes → Option Bytes
  | [], _ => none
  | (k0, v0) :: rest, k => if bcompare k k0 = 0 then some v0 else bget rest k

/-- Engine `bucket.Put(key, value)`: insert or overwrite, preserving key
order. -/
def bput : Bucket → Bytes → Bytes → Bucket
  | [], k, v => [(k, v)]
  | (k0, v0) :: rest, k, v =>
    if bcompare k k0 = -1 then (k, v) :: (k0, v0) :: rest
    else if bcompare k k0 = 0 then (k, v) :: rest
    else (k0, v0) :: bput rest k v

/-- Engine `bucket.Delete(key)`: remove the key if present (no-op
otherwise, as bolt documents). -/
def bdel : Bucket → Bytes → Bucket
  | [], _ => []
  | (k0, v0) :: rest, k =>
    if bcompare k k0 = 0 then rest else (k0, v0) :: bdel rest k

/-- The store: bucket names to buckets. -/
abbrev DB := List (Bytes × Bucket)

instance : DecidableEq (DB × Nat) := fun a b => inferInstance

/-- The freshly opened, empty store. -/
def dbEmpty : DB := []

/-- Engine `tx.Bucket(name)`: `none` when the namespace is absent. -/
def dbGet : DB → Bytes → Option Bucket
  | [], _ => none
  | (n0, b0) :: rest, n => if n = n0 then some b0 else dbGet rest n

/-- Store a bucket under a name (update in place or append). -/
def dbPut : DB → Bytes → Bucket → DB
  | [], n, b => [(n, b)]
  | (n0, b0) :: rest, n, b =>
    if n = n0 then (n, b) :: rest else (n0, b0) :: dbPut rest n b

/-- Modelled from the spec: the engine's namespace-drop primitive (bolt's
`tx.DeleteBucket`, not part of src/).  Section 4.2 of the spec gives its
contract through `DeleteAll(name)`: "drop the entire namespace; no-op if
absent". -/
def dbDel (db : DB) (n : Bytes) : DB := db.filter (fun p => p.1 != n)

/-- Engine `tx.CreateBucketIfNotExists(name)` as a read: the bucket content,
an absent bucket reading as empty. -/
def getBucket (db : DB) (n : Bytes) : Bucket := (dbGet db n).getD []

/-- The `Reply` result holder (src/youdb.go:41): a status string plus raw
byte results. -/
structure Reply where
  State : String
  Data : List Bytes
deriving DecidableEq, Repr

/-- Go `DB.Hset` (src/youdb.go:70): create the `hash:<name>` bucket if
absent and put the pair. -/
def Hset (db : DB) (name key val : Bytes) : DB :=
  dbPut db (hashName name) (bput (getBucket db (hashName name)) key val)

/-- Success path of `Hincr`: write the incremented value and return it. -/
def hincrWrite (db : DB) (name : Bytes) (b : Bucket) (key : Bytes)
    (oldNum step : Nat) : Option (Except String (DB × Nat)) :=
  let newNum := (oldNum + step) % w64
  some (Except.ok (dbPut db (hashName name) (bput b key (I2b newNum)), newNum))

/-- Overflow guard and write of `Hincr` (src/youdb.go:116-131), after the
stored value has been decoded to `oldNum` (0 when the key is absent). -/
def hincrCore (db : DB) (name : Bytes) (b : Bucket) (key : Bytes)
    (step oldNum : Nat) : Option (Except String (DB × Nat)) :=
  if 0 < step then
    if goSub scoreMax step < oldNum then some (Except.error "overflow number")
    else hincrWrite db name b key oldNum step
  else
    if (oldNum + step) % w64 < scoreMin then some (Except.error "overflow number")
    else hincrWrite db name b key oldNum step

/-- Go `DB.Hincr` (src/youdb.go:103): read the current value (`B2i` panics,
i.e. `none`, when the stored value is shorter than 8 bytes), guard against
overflow, then write.  An error return aborts the transaction, so the store
is unchanged on the error path. -/
def Hincr (db : DB) (name key : Bytes) (step : Nat) :
    Option (Except String (DB × Nat)) :=
  let b := getBucket db (hashName name)
  match bget b key with
  | some v =>
    match B2i v with
    | none => none
    | some oldNum => hincrCore db name b key step oldNum
  | none => hincrCore db name b key step 0

/-- Go `DB.HdelBucket` (src/youdb.go:150): drop the whole `hash:<name>`
namespace through the spec-modelled drop primitive `dbDel`. -/
def HdelBucket (db : DB) (name : Bytes) : DB := dbDel db (hashName name)

/-- Go `DB.Hget` (src/youdb.go:158): the `Reply` starts as `error`; an
absent bucket yields state `bucket_not_found`, an absent key
`key_not_found`, otherwise `ok` with the value appended. -/
def Hget (db : DB) (name key : Bytes) : Reply :=
  match dbGet db (hashName name) with
  | none => { State := "bucket_not_found", Data := [] }
  | some b =>
    match bget b key with
    | none => { State := "key_not_found", Data := [] }
    | some v => { State := "ok", Data := [v] }

/-- Go `DB.Hrscan` (src/youdb.go:243): reverse scan.  When the bucket is
absent the `View` callback returns the bucket-not-found error, the inverted
check `if err == nil` is skipped, and the reply keeps its initial generic
`error` state.  When the bucket exists the callback returns nil and the
code executes `r.State = err.Error()` on a nil `err`: a nil-pointer panic,
modelled as `none`; the key/value pairs collected by the loop are never
returned. -/
def Hrscan (db : DB) (name keyStart : Bytes) (limit : Nat) : Option Reply :=
  match dbGet db (hashName name) with
  | none => some { State := "error", Data := [] }
  | some _ => none

/-- Per-pair body of `Zset` and `Zmset` on the two buckets of one set:
`b1` is `zkey:<name>`, `b2` is `zscore:<name>`.  `bytes.Equal(oldScore,
score)` treats a nil old score as empty bytes.  When the score changed,
put `score‖key` into the score index, point `key` at the new score, and
delete the stale `oldScore‖key` entry if there was one. -/
def zsetB (b1 b2 : Bucket) (key score : Bytes) : Bucket × Bucket :=
  let newKey := Bconcat [score, key]
  let oldScore := bget b2 key
  if oldScore.getD [] = score then (b1, b2)
  else
    let b1a := bput b1 newKey []
    let b2a := bput b2 key score
    match oldScore with
    | some os => (bdel b1a (Bconcat [os, key]), b2a)
    | none => (b1a, b2a)

/-- Go `DB.Zset` (src/youdb.go:283): both buckets are created if absent
(also on the unchanged path), then the dual-index update runs on them. -/
def Zset (db : DB) (name key : Bytes) (val : Nat) : DB :=
  let p := zsetB (getBucket db (zkeyName name)) (getBucket db (zscoreName name))
    key (I2b val)
  dbPut (dbPut db (zkeyName name) p.1) (zscoreName name) p.2

/-- Loop of `Zmset` (src/youdb.go:341-366): the flat argument list is
consumed two at a time, each pair going through the `zsetB` update against
the buckets left by the previous pairs. -/
def zmsetLoop : Bucket × Bucket → List Bytes → Bucket × Bucket
  | p, [] => p
  | p, [_] => p
  | p, key :: score :: rest => zmsetLoop (zsetB p.1 p.2 key score) rest

/-- Go `DB.Zmset` (src/youdb.go:323): client error on an empty or
odd-length argument list, otherwise the pairs are written in one
transaction.  The raw score bytes are not validated. -/
def Zmset (db : DB) (name : Bytes) (kvs : List Bytes) : Except String DB :=
  if kvs.length = 0 ∨ kvs.length % 2 ≠ 0 then
    Except.error "kvs len must is an even number"
  else
    let p := zmsetLoop (getBucket db (zkeyName name), getBucket db (zscoreName name)) kvs
    Except.ok (dbPut (dbPut db (zkeyName name) p.1) (zscoreName name) p.2)

/-- Write phase of `Zincr` (src/youdb.go:402-423): unconditionally put the
new composite key and the new score, then delete `vOld‖key` whenever an old
value existed — even when it coincides with the key just written. -/
def zincrWrite (db : DB) (name : Bytes) (b1 b2 : Bucket) (key : Bytes)
    (vOld : Option Bytes) (score : Nat) : Option (Except String (DB × Nat)) :=
  let newScoreB := I2b score
  let newKey := Bconcat [newScoreB, key]
  let b1a := bput b1 newKey []
  let b2a := bput b2 key newScoreB
  let b1b :=
    match vOld with
    | some ov => bdel b1a (Bconcat [ov, key])
    | none => b1a
  some (Except.ok (dbPut (dbPut db (zkeyName name) b1b) (zscoreName name) b2a, score))

/-- Overflow guard of `Zincr` (src/youdb.go:392-400), identical to the
`Hincr` one, followed by the write phase. -/
def zincrCore (db : DB) (name : Bytes) (b1 b2 : Bucket) (key : Bytes)
    (vOld : Option Bytes) (step oldNum : Nat) : Option (Except String (DB × Nat)) :=
  if 0 < step then
    if goSub scoreMax step < oldNum then some (Except.error "overflow number")
    else zincrWrite db name b1 b2 key vOld ((oldNum + step) % w64)
  else
    if (oldNum + step) % w64 < scoreMin then some (Except.error "overflow number")
    else zincrWrite db name b1 b2 key vOld ((oldNum + step) % w64)

/-- Go `DB.Zincr` (src/youdb.go:372): read the old score through the member
index (`B2i` panics, `none`, on a stored value shorter than 8 bytes), guard
against overflow, then update both indexes.  An error return aborts the
transaction. -/
def Zincr (db : DB) (name key : Bytes) (step : Nat) :
    Option (Except String (DB × Nat)) :=
  let b1 := getBucket db (zkeyName name)
  let b2 := getBucket db (zscoreName name)
  match bget b2 key with
  | some v =>
    match B2i v with
    | none => none
    | some oldNum => zincrCore db name b1 b2 key (some v) step oldNum
  | none => zincrCore db name b1 b2 key none step 0

/-- Scan loop shared by `Zscan` and `Zrscan` (src/youdb.go:548-557 and
603-611): for every visited entry whose key compares to the bound with the
expected sign, append `k[8:]` and `k[0:8]` — a Go slice-bounds panic, here
`none`, when the key is shorter than 8 bytes — and stop once the count
reaches `limit` (`n == limit` after the increment, so `limit = 0` never
stops). -/
def zscanLoop (want : Int) : List (Bytes × Bytes) → Bytes → Nat → Nat →
    Option (List Bytes)
  | [], _, _, _ => some []
  | (k, _) :: rest, start, limit, n =>
    if bcompare k start = want then
      if 8 ≤ k.length then
        if n + 1 = limit then some [k.drop 8, k.take 8]
        else
          match zscanLoop want rest start limit (n + 1) with
          | none => none
          | some l => some (k.drop 8 :: k.take 8 :: l)
      else none
    else zscanLoop want rest start limit n

/-- Go `DB.Zscan` (src/youdb.go:525): seek the cursor to the first key not
below `scoreStartB` (the raw score bytes, defaulting to the encoded
`scoreMin`), then iterate forward collecting entries strictly greater than
`scoreStartB ‖ keyStart`.  The reply state is `ok` exactly when something
was appended, the initial generic `error` otherwise. -/
def Zscan (db : DB) (name keyStart scoreStart : Bytes) (limit : Nat) :
    Option Reply :=
  let scoreStartB := if 0 < scoreStart.length then scoreStart else I2b scoreMin
  let startScoreKeyB := Bconcat [scoreStartB, keyStart]
  match dbGet db (zkeyName name) with
  | none => some { State := "bucket_not_found", Data := [] }
  | some b =>
    let iter := b.dropWhile (fun kv => bcompare kv.1 scoreStartB = -1)
    match zscanLoop 1 iter startScoreKeyB limit 0 with
    | none => none
    | some data =>
      some { State := if data.isEmpty then "error" else "ok", Data := data }

/-- Backward iteration order of a cursor positioned by `Seek(target)` and
stepped with `Prev`: the seek lands on the first key not below `target`
(`Seek` returning nil, hence no iteration, when every key is below it) and
walks back to the first key. -/
def seekBack (b : Bucket) (target : Bytes) : List (Bytes × Bytes) :=
  match b.dropWhile (fun kv => bcompare kv.1 target = -1) with
  | [] => []
  | x :: _ => x :: (b.takeWhile (fun kv => bcompare kv.1 target = -1)).reverse

/-- Go `DB.Zrscan` (src/youdb.go:567): member start defaults to the single
byte 255 and score start to the encoded `scoreMax`; with no explicit score
start the cursor starts from `Last()`, otherwise from a seek.  Entries
strictly below `scoreStartB ‖ startKey` are collected walking backward. -/
def Zrscan (db : DB) (name keyStart scoreStart : Bytes) (limit : Nat) :
    Option Reply :=
  let startKey := if 0 < keyStart.length then keyStart else [255]
  let scoreStartB := if 0 < scoreStart.length then scoreStart else I2b scoreMax
  let startScoreKeyB := Bconcat [scoreStartB, startKey]
  match dbGet db (zkeyName name) with
  | none => some { State := "bucket_not_found", Data := [] }
  | some b =>
    let iter := if 0 < scoreStart.length then seekBack b scoreStartB else b.reverse
    match zscanLoop (-1) iter startScoreKeyB limit 0 with
    | none => none
    | some data =>
      some { State := if data.isEmpty then "error" else "ok", Data := data }

/-- Go two's-complement reinterpretation of a `uint64` as a signed 64-bit
integer (`int64(u)` / `int(u)` on a 64-bit platform). -/
def toInt64 (n : Nat) : Int :=
  if n < 2 ^ 63 then (n : Int) else (n : Int) - (w64 : Int)

/-- Go `Reply.String` (src/youdb.go:622): first data element as a string
(byte-identical), empty when there is no data. -/
def Reply.str (r : Reply) : Bytes :=
  match r.Data with
  | [] => []
  | v :: _ => v

/-- Go `Reply.Uint64` (src/youdb.go:648): 0 when there is no data or the
first element is shorter than 8 bytes, otherwise the big-endian decode
(which cannot panic there, the length having been checked). -/
def Reply.uint64 (r : Reply) : Nat :=
  match r.Data with
  | [] => 0
  | v :: _ => if v.length < 8 then 0 else (B2i v).getD 0

/-- Go `Reply.Uint` (src/youdb.go:643). -/
def Reply.uint (r : Reply) : Nat := r.uint64

/-- Go `Reply.Int` (src/youdb.go:630): `int(r.Uint64())`. -/
def Reply.int (r : Reply) : Int := toInt64 r.uint64

/-- Go `Reply.Int64` (src/youdb.go:635): 0 on empty data, otherwise
`int64(r.Uint64())`. -/
def Reply.int64 (r : Reply) : Int :=
  match r.Data with
  | [] => 0
  | _ :: _ => toInt64 r.uint64

/-- Pairing loop of `Reply.List` and `Reply.Dict`: consecutive data
elements grouped two at a time, a trailing odd element dropped. -/
def pairUp : List Bytes → List (Bytes × Bytes)
  | k :: v :: rest => (k, v) :: pairUp rest
  | _ => []

/-- Go `Reply.List` (src/youdb.go:659): the key/value pairs of the data. -/
def Reply.list (r : Reply) : List (Bytes × Bytes) := pairUp r.Data

/-- Upsert into the association list modelling a Go map: last write wins. -/
def dictPut : List (Bytes × Bytes) → Bytes → Bytes → List (Bytes × Bytes)
  | [], k, v => [(k, v)]
  | (k0, v0) :: rest, k, v =>
    if k = k0 then (k, v) :: rest else (k0, v0) :: dictPut rest k v

/-- Go `Reply.Dict` (src/youdb.go:671): the pairs poured into a map,
duplicate keys resolved by the last write. -/
def Reply.dict (r : Reply) : List (Bytes × Bytes) :=
  (pairUp r.Data).foldl (fun d p => dictPut d p.1 p.2) []

/-- Go `Reply.JSON` (src/youdb.go:684) accesses `r.Data[0]` before
unmarshalling: the bytes handed to `json.Unmarshal`, the index panic on an
empty data list modelled as `none` (the unmarshalling itself is the
external `encoding/json`). -/
def Reply.json (r : Reply) : Option Bytes :=
  match r.Data with
  | [] => none
  | v :: _ => some v

/-- Go `bs.Uint64` (src/youdb.go:708): 0 on fewer than 8 bytes, otherwise
the big-endian decode. -/
def bsUint64 (v : Bytes) : Nat :=
  if v.length < 8 then 0 else (B2i v).getD 0

/-- Members of one sorted set with the stored numeric scores: the sequence
of `Zset` calls folded over the store. -/
def foldZset (db : DB) (name : Bytes) (ops : List (Bytes × Nat)) : DB :=
  ops.foldl (fun d p => Zset d name p.1 p.2) db

/-- The score a member ends up with after a call sequence: the last
`(member, score)` pair for it, if any. -/
def lastScore : List (Bytes × Nat) → Bytes → Option Nat
  | [], _ => none
  | (m, s) :: rest, k =>
    match lastScore rest k with
    | some r => some r
    | none => if m = k then some s else none

/-- Data layout of a sorted-set scan reply: for each `(member, score)` pair
the member bytes followed by the encoded score. -/
def pairsData : List (Bytes × Nat) → List Bytes
  | [] => []
  | (m, s) :: rest => m :: I2b s :: pairsData rest

/-- Strict ascending order on `(score, member-bytes)` pairs (member first
in the pair, mirroring the scan output layout). -/
def pairLt (p q : Bytes × Nat) : Prop :=
  p.2 < q.2 ∨ (p.2 = q.2 ∧ bcompare p.1 q.1 = -1)

/-- The sorted-set consistency invariant over the two buckets of one set,
read off the 8-byte fixed-width decomposition the code uses: every member
of the member index has an 8-byte score whose composite key is in the
score index, and every score-index entry decomposes back to a current
member entry (hence no orphaned and no duplicate index entries). -/
def zConsistent (zk zs : Bucket) : Prop :=
  (∀ p ∈ zs, p.2.length = 8 ∧ (Bconcat [p.2, p.1]) ∈ zk.map Prod.fst) ∧
  (∀ k ∈ zk.map Prod.fst, 8 ≤ k.length ∧ bget zs (k.drop 8) = some (k.take 8))

instance (zk zs : Bucket) : Decidable (zConsistent zk zs) := by
  unfold zConsistent
  infer_instance

/-! ### Order properties of `bcompare` -/

theorem bcompare_self (a : Bytes) : bcompare a a = 0 := by
  induction a with
  | nil => rfl
  | cons x xs ih => simp [bcompare, ih]

theorem bcompare_eq_zero_iff : ∀ {a b : Bytes}, bcompare a b = 0 ↔ a = b := by
  intro a
  induction a with
  | nil => intro b; cases b <;> simp [bcompare]
  | cons x xs ih =>
    intro b
    cases b with
    | nil => simp [bcompare]
    | cons y ys =>
      by_cases h1 : x < y
      · simp [bcompare, h1]
        omega
      · by_cases h2 : y < x
        · simp [bcompare, h1, h2]
          omega
        · have hxy : x = y := by omega
          simp [bcompare, h1, h2, hxy, ih]

theorem bcompare_flip : ∀ {a b : Bytes}, bcompare a b = -1 ↔ bcompare b a = 1 := by
  intro a
  induction a with
  | nil => intro b; cases b <;> simp [bcompare]
  | cons x xs ih =>
    intro b
    cases b with
    | nil => simp [bcompare]
    | cons y ys =>
      by_cases h1 : x < y
      · have h2 : ¬ y < x := by omega
        simp [bcompare, h1, h2]
      · by_cases h2 : y < x
        · simp [bcompare, h1, h2]
        · simp [bcompare, h1, h2, ih]

theorem bcompare_trichotomy (a b : Bytes) :
    bcompare a b = -1 ∨ bcompare a b = 0 ∨ bcompare a b = 1 := by
  induction a generalizing b with
  | nil => cases b <;> simp [bcompare]
  | cons x xs ih =>
    cases b with
    | nil => simp [bcompare]
    | cons y ys =>
      by_cases h1 : x < y
      · simp [bcompare, h1]
      · by_cases h2 : y < x
        · simp [bcompare, h1, h2]
        · simpa [bcompare, h1, h2] using ih ys

theorem blt_trans : ∀ {a b c : Bytes},
    bcompare a b = -1 → bcompare b c = -1 → bcompare a c = -1 := by
  intro a
  induction a with
  | nil =>
    intro b c hab hbc
    cases b with
    | nil => exact hbc
    | cons y ys =>
      cases c with
      | nil => simp [bcompare] at hbc
      | cons z zs => simp [bcompare]
  | cons x xs ih =>
    intro b c hab hbc
    cases b with
    | nil => simp [bcompare] at hab
    | cons y ys =>
      cases c with
      | nil => simp [bcompare] at hbc
      | cons z zs =>
        by_cases hxy : x < y
        · by_cases hyz : y < z
          · have : x < z := by omega
            simp [bcompare, this]
          · by_cases hzy : z < y
            · simp [bcompare, hyz, hzy] at hbc
            · have hyz2 : y = z := by omega
              subst hyz2
              simp [bcompare, hxy]
        · by_cases hyx : y < x
          · simp [bcompare, hxy, hyx] at hab
          · have hxy2 : x = y := by omega
            subst hxy2
            simp [bcompare, hxy, hyx] at hab
            by_cases hyz : x < z
            · simp [bcompare, hyz]
            · by_cases hzy : z < x
              · simp [bcompare, hyz, hzy] at hbc
              · have : x = z := by omega
                subst this
                simp [bcompare, hyz, hzy] at hbc ⊢
                exact ih hab hbc

theorem bcompare_append_congr : ∀ {a b : Bytes} (c d : Bytes),
    a.length = b.length →
    bcompare (a ++ c) (b ++ d) =
      (if bcompare a b = 0 then bcompare c d else bcompare a b) := by
  intro a
  induction a with
  | nil =>
    intro b c d hlen
    cases b with
    | nil => simp [bcompare]
    | cons y ys => simp at hlen
  | cons x xs ih =>
    intro b c d hlen
    cases b with
    | nil => simp at hlen
    | cons y ys =>
      simp at hlen
      by_cases h1 : x < y
      · simp [bcompare, h1]
      · by_cases h2 : y < x
        · simp [bcompare, h1, h2]
        · simp only [List.cons_append, bcompare, if_neg h1, if_neg h2]
          exact ih c d hlen

theorem bcompare_append_left (p a b : Bytes) :
    bcompare (p ++ a) (p ++ b) = bcompare a b := by
  rw [bcompare_append_congr a b rfl, bcompare_self]
  simp

/-! ### Big-endian encoding: round trip and order preservation -/

/-- Big-endian digit expansion of width `n`, the recursion the order proofs
run on; `I2b` is its width-8 instance. -/
def beBytes : Nat → Nat → Bytes
  | 0, _ => []
  | n + 1, x => x / 256 ^ n :: beBytes n (x % 256 ^ n)

theorem beBytes_lt_of_lt : ∀ (n : Nat) {x y : Nat}, x < y → y < 256 ^ n →
    bcompare (beBytes n x) (beBytes n y) = -1 := by
  intro n
  induction n with
  | zero =>
    intro x y hxy hy
    simp [pow_zero] at hy
    omega
  | succ n ih =>
    intro x y hxy hy
    have hB : 0 < 256 ^ n := Nat.pos_pow_of_pos n (by norm_num)
    have hqle : x / 256 ^ n ≤ y / 256 ^ n := Nat.div_le_div_right (le_of_lt hxy)
    rcases lt_or_eq_of_le hqle with hq | hq
    · simp [beBytes, bcompare, hq]
    · have hx1 := Nat.div_add_mod x (256 ^ n)
      have hy1 := Nat.div_add_mod y (256 ^ n)
      have hPQ : 256 ^ n * (x / 256 ^ n) = 256 ^ n * (y / 256 ^ n) := by rw [hq]
      have hmod : x % 256 ^ n < y % 256 ^ n := by omega
      have hylt : y % 256 ^ n < 256 ^ n := Nat.mod_lt y hB
      have hrec := ih hmod hylt
      simp [beBytes, bcompare, hq, hrec]

theorem I2b_eq_beBytes (x : Nat) (hx : x < w64) : I2b x = beBytes 8 x := by
  have h64 : w64 = 2 ^ 64 := by norm_num [w64]
  simp only [I2b, beBytes, List.cons.injEq, and_true]
  norm_num
  omega

theorem I2b_length (x : Nat) : (I2b x).length = 8 := rfl

theorem B2i_I2b (x : Nat) (hx : x < w64) : B2i (I2b x) = some x := by
  have h64 : w64 = 2 ^ 64 := by norm_num [w64]
  simp only [I2b, B2i, Option.some.injEq]
  omega

theorem I2b_inj {x y : Nat} (hx : x < w64) (hy : y < w64) (h : I2b x = I2b y) :
    x = y := by
  have h1 := B2i_I2b x hx
  have h2 := B2i_I2b y hy
  rw [h, h2] at h1
  exact (Option.some.injEq _ _).mp h1.symm

theorem bcompare_I2b_of_lt {x y : Nat} (hxy : x < y) (hy : y < w64) :
    bcompare (I2b x) (I2b y) = -1 := by
  have h64 : w64 = 2 ^ 64 := by norm_num [w64]
  have h8 : (256 : Nat) ^ 8 = 2 ^ 64 := by norm_num
  rw [I2b_eq_beBytes x (lt_trans hxy hy), I2b_eq_beBytes y hy]
  exact beBytes_lt_of_lt 8 hxy (by omega)

theorem lt_of_bcompare_I2b {x y : Nat} (hx : x < w64) (hy : y < w64)
    (h : bcompare (I2b x) (I2b y) = -1) : x < y := by
  rcases Nat.lt_trichotomy x y with hlt | heq | hgt
  · exact hlt
  · subst heq
    rw [bcompare_self] at h
    simp at h
  · have := bcompare_I2b_of_lt hgt hx
    rw [bcompare_flip] at this
    omega

/-! ### Bucket lemmas -/

/-- The key set of a bucket. -/
def bkeys (b : Bucket) : List Bytes := b.map Prod.fst

/-- Strict ascending key order, the shape bolt's B+tree iteration
guarantees. -/
def SortedB (b : Bucket) : Prop :=
  List.Pairwise (fun p q => bcompare p.1 q.1 = -1) b

theorem bget_bput_self (b : Bucket) (k v : Bytes) :
    bget (bput b k v) k = some v := by
  induction b with
  | nil => simp [bput, bget, bcompare_self]
  | cons p rest ih =>
    obtain ⟨k0, v0⟩ := p
    by_cases h1 : bcompare k k0 = -1
    · simp [bput, h1, bget, bcompare_self]
    · by_cases h2 : bcompare k k0 = 0
      · simp [bput, h1, h2, bget, bcompare_self]
      · simp [bput, h1, h2, bget, ih]

theorem bget_bput_ne (b : Bucket) (k v q : Bytes) (hne : q ≠ k) :
    bget (bput b k v) q = bget b q := by
  have hq : ¬ bcompare q k = 0 := by
    rw [bcompare_eq_zero_iff]
    exact hne
  induction b with
  | nil => simp [bput, bget, hq]
  | cons p rest ih =>
    obtain ⟨k0, v0⟩ := p
    by_cases h1 : bcompare k k0 = -1
    · simp [bput, h1, bget, hq]
    · by_cases h2 : bcompare k k0 = 0
      · have : k = k0 := bcompare_eq_zero_iff.mp h2
        subst this
        simp [bput, h1, h2, bget, hq]
      · simp [bput, h1, h2, bget, ih]

theorem mem_bkeys_bput (b : Bucket) (k v q : Bytes) :
    q ∈ bkeys (bput b k v) ↔ q = k ∨ q ∈ bkeys b := by
  induction b with
  | nil => simp [bput, bkeys]
  | cons p rest ih =>
    obtain ⟨k0, v0⟩ := p
    by_cases h1 : bcompare k k0 = -1
    · simp [bput, h1, bkeys]
    · by_cases h2 : bcompare k k0 = 0
      · have : k = k0 := bcompare_eq_zero_iff.mp h2
        subst this
        simp [bput, h1, h2, bkeys]
      · simp only [bput, if_neg h1, if_neg h2, bkeys, List.map_cons, List.mem_cons]
        rw [show (bkeys (bput rest k v) = List.map Prod.fst (bput rest k v)) from rfl] at ih
        rw [ih]
        simp [bkeys]
        tauto

theorem bdel_sublist (b : Bucket) (k : Bytes) : (bdel b k).Sublist b := by
  induction b with
  | nil => simp [bdel]
  | cons p rest ih =>
    obtain ⟨k0, v0⟩ := p
    by_cases h : bcompare k k0 = 0
    · simp [bdel, h]
    · simpa [bdel, h] using ih.cons₂ (k0, v0)

theorem sortedB_bdel {b : Bucket} (hs : SortedB b) (k : Bytes) :
    SortedB (bdel b k) := hs.sublist (bdel_sublist b k)

theorem mem_bput_elim {b : Bucket} {k v : Bytes} {p : Bytes × Bytes}
    (h : p ∈ bput b k v) : p = (k, v) ∨ p ∈ b := by
  induction b with
  | nil => simpa [bput] using h
  | cons q rest ih =>
    obtain ⟨k0, v0⟩ := q
    by_cases h1 : bcompare k k0 = -1
    · rw [bput, if_pos h1] at h
      rcases List.mem_cons.mp h with h | h
      · exact Or.inl h
      · exact Or.inr h
    · by_cases h2 : bcompare k k0 = 0
      · rw [bput, if_neg h1, if_pos h2] at h
        rcases List.mem_cons.mp h with h | h
        · exact Or.inl h
        · exact Or.inr (List.mem_cons_of_mem _ h)
      · simp [bput, h1, h2] at h
        rcases h with h | h
        · simp [h]
        · rcases ih h with h | h
          · tauto
          · simp [h]

theorem sortedB_bput {b : Bucket} (hs : SortedB b) (k v : Bytes) :
    SortedB (bput b k v) := by
  induction b with
  | nil => simp [bput, SortedB]
  | cons p rest ih =>
    obtain ⟨k0, v0⟩ := p
    rw [SortedB, List.pairwise_cons] at hs
    obtain ⟨hall, hrest⟩ := hs
    by_cases h1 : bcompare k k0 = -1
    · rw [SortedB, bput, if_pos h1]
      rw [List.pairwise_cons]
      constructor
      · intro q hq
        rcases List.mem_cons.mp hq with h | h
        · subst h
          exact h1
        · exact blt_trans h1 (hall q h)
      · rw [List.pairwise_cons]
        exact ⟨hall, hrest⟩
    · by_cases h2 : bcompare k k0 = 0
      · have : k = k0 := bcompare_eq_zero_iff.mp h2
        subst this
        rw [SortedB, bput, if_neg h1, if_pos h2, List.pairwise_cons]
        exact ⟨hall, hrest⟩
      · rw [SortedB, bput, if_neg h1, if_neg h2, List.pairwise_cons]
        constructor
        · intro q hq
          rcases mem_bput_elim hq with h | h
          · subst h
            rcases bcompare_trichotomy k k0 with h | h | h
            · exact absurd h h1
            · exact absurd h h2
            · exact bcompare_flip.mpr h
          · exact hall q h
        · exact ih hrest

theorem mem_bkeys_bdel {b : Bucket} (hs : SortedB b) (t q : Bytes) :
    q ∈ bkeys (bdel b t) ↔ q ∈ bkeys b ∧ q ≠ t := by
  induction b with
  | nil => simp [bdel, bkeys]
  | cons p rest ih =>
    obtain ⟨k0, v0⟩ := p
    rw [SortedB, List.pairwise_cons] at hs
    obtain ⟨hall, hrest⟩ := hs
    by_cases h : bcompare t k0 = 0
    · have ht : t = k0 := bcompare_eq_zero_iff.mp h
      subst ht
      simp only [bdel, if_pos h, bkeys, List.map_cons, List.mem_cons]
      constructor
      · intro hq
        refine ⟨Or.inr hq, ?_⟩
        intro hqt
        subst hqt
        obtain ⟨⟨a, b2⟩, hm, hfst⟩ := List.mem_map.mp hq
        have := hall _ hm
        simp at hfst
        subst hfst
        rw [bcompare_self] at this
        simp at this
      · rintro ⟨h1 | h1, h2⟩
        · exact absurd h1 h2
        · exact h1
    · have ht : t ≠ k0 := fun he => h (bcompare_eq_zero_iff.mpr he)
      simp only [bdel, if_neg h, bkeys, List.map_cons, List.mem_cons]
      rw [show bkeys (bdel rest t) = List.map Prod.fst (bdel rest t) from rfl] at ih
      rw [ih hrest]
      simp only [bkeys]
      constructor
      · rintro (h1 | ⟨h1, h2⟩)
        · subst h1
          exact ⟨Or.inl rfl, Ne.symm ht⟩
        · exact ⟨Or.inr h1, h2⟩
      · rintro ⟨h1 | h1, h2⟩
        · exact Or.inl h1
        · exact Or.inr ⟨h1, h2⟩

theorem bget_mem_bkeys {b : Bucket} {k : Bytes} :
    (∃ v, bget b k = some v) ↔ k ∈ bkeys b := by
  induction b with
  | nil => simp [bget, bkeys]
  | cons p rest ih =>
    obtain ⟨k0, v0⟩ := p
    by_cases h : bcompare k k0 = 0
    · have : k = k0 := bcompare_eq_zero_iff.mp h
      subst this
      simp [bget, h, bkeys]
    · have : k ≠ k0 := fun he => h (bcompare_eq_zero_iff.mpr he)
      simp [bget, h, bkeys, this, ih]

/-! ### Store-level lemmas -/

theorem dbGet_dbPut_self (db : DB) (n : Bytes) (b : Bucket) :
    dbGet (dbPut db n b) n = some b := by
  induction db with
  | nil => simp [dbPut, dbGet]
  | cons p rest ih =>
    obtain ⟨n0, b0⟩ := p
    by_cases h : n = n0
    · simp [dbPut, h, dbGet]
    · simp [dbPut, h, dbGet, ih]

theorem dbGet_dbPut_ne (db : DB) (n q : Bytes) (b : Bucket) (hne : q ≠ n) :
    dbGet (dbPut db n b) q = dbGet db q := by
  induction db with
  | nil => simp [dbPut, dbGet, hne]
  | cons p rest ih =>
    obtain ⟨n0, b0⟩ := p
    by_cases h : n = n0
    · subst h
      simp [dbPut, dbGet, hne, ih]
    · by_cases h2 : q = n0
      · simp [dbPut, h, dbGet, h2]
      · simp [dbPut, h, dbGet, h2, ih]

theorem dbGet_dbDel_self (db : DB) (n : Bytes) : dbGet (dbDel db n) n = none := by
  induction db with
  | nil => simp [dbDel, dbGet]
  | cons p rest ih =>
    obtain ⟨n0, b0⟩ := p
    by_cases h : n0 = n
    · subst h
      simpa [dbDel, dbGet] using ih
    · have hq : n ≠ n0 := Ne.symm h
      simp only [dbDel, List.filter_cons]
      simp only [bne_iff_ne, ne_eq, h, not_false_iff, if_true, decide_not]
      simp [dbGet, hq]
      simpa [dbDel] using ih

theorem dbDel_absent (db : DB) (n : Bytes) (h : dbGet db n = none) :
    dbDel db n = db := by
  induction db with
  | nil => simp [dbDel]
  | cons p rest ih =>
    obtain ⟨n0, b0⟩ := p
    rw [dbGet] at h
    by_cases he : n = n0
    · simp [he] at h
    · simp only [if_neg he] at h
      have : n0 ≠ n := Ne.symm he
      simp only [dbDel, List.filter_cons]
      simp only [bne_iff_ne, ne_eq, this, not_false_iff, if_true, decide_not]
      simp only [List.cons.injEq, true_and]
      simpa [dbDel] using ih h

theorem zkeyName_ne_zscoreName (name : Bytes) : zkeyName name ≠ zscoreName name := by
  intro h
  simp [zkeyName, zscoreName, Bconcat, zetKeyPrefix, zetScorePrefix] at h

/-- Bucket view of a `Zset` call: the score-index bucket afterwards. -/
theorem getBucket_Zset_zkey (db : DB) (name key : Bytes) (val : Nat) :
    getBucket (Zset db name key val) (zkeyName name) =
      (zsetB (getBucket db (zkeyName name)) (getBucket db (zscoreName name))
        key (I2b val)).1 := by
  rw [Zset, getBucket, dbGet_dbPut_ne _ _ _ _ (zkeyName_ne_zscoreName name),
    dbGet_dbPut_self]
  rfl

/-- Bucket view of a `Zset` call: the member-index bucket afterwards. -/
theorem getBucket_Zset_zscore (db : DB) (name key : Bytes) (val : Nat) :
    getBucket (Zset db name key val) (zscoreName name) =
      (zsetB (getBucket db (zkeyName name)) (getBucket db (zscoreName name))
        key (I2b val)).2 := by
  rw [Zset, getBucket, dbGet_dbPut_self]
  rfl

theorem dbGet_Zset_zkey_isSome (db : DB) (name key : Bytes) (val : Nat) :
    ∃ b, dbGet (Zset db name key val) (zkeyName name) = some b := by
  rw [Zset, dbGet_dbPut_ne _ _ _ _ (zkeyName_ne_zscoreName name), dbGet_dbPut_self]
  exact ⟨_, rfl⟩

/-! ### The Zset fold and its dual-index invariant -/

theorem Bconcat_pair (a b : Bytes) : Bconcat [a, b] = a ++ b := by
  simp [Bconcat]

/-- The two buckets of one set threaded through a sequence of `Zset`
calls, bucket-level view of `foldZset`. -/
def zsetFoldPair (p : Bucket × Bucket) (ops : List (Bytes × Nat)) :
    Bucket × Bucket :=
  ops.foldl (fun q r => zsetB q.1 q.2 r.1 (I2b r.2)) p

theorem foldZset_buckets (name : Bytes) : ∀ (ops : List (Bytes × Nat)) (db : DB),
    (getBucket (foldZset db name ops) (zkeyName name),
      getBucket (foldZset db name ops) (zscoreName name)) =
      zsetFoldPair (getBucket db (zkeyName name), getBucket db (zscoreName name)) ops := by
  intro ops
  induction ops with
  | nil => intro db; rfl
  | cons q rest ih =>
    intro db
    have h1 := getBucket_Zset_zkey db name q.1 q.2
    have h2 := getBucket_Zset_zscore db name q.1 q.2
    calc (getBucket (foldZset db name (q :: rest)) (zkeyName name),
          getBucket (foldZset db name (q :: rest)) (zscoreName name))
        = (getBucket (foldZset (Zset db name q.1 q.2) name rest) (zkeyName name),
           getBucket (foldZset (Zset db name q.1 q.2) name rest) (zscoreName name)) := rfl
      _ = zsetFoldPair (getBucket (Zset db name q.1 q.2) (zkeyName name),
            getBucket (Zset db name q.1 q.2) (zscoreName name)) rest := ih _
      _ = zsetFoldPair (getBucket db (zkeyName name), getBucket db (zscoreName name))
            (q :: rest) := by
            rw [h1, h2]
            rfl

theorem foldZset_zkey_present (name : Bytes) :
    ∀ (ops : List (Bytes × Nat)) (db : DB), ops ≠ [] →
    ∃ b, dbGet (foldZset db name ops) (zkeyName name) = some b := by
  intro ops
  induction ops with
  | nil => intro db h; exact absurd rfl h
  | cons q rest ih =>
    intro db _
    cases rest with
    | nil => exact dbGet_Zset_zkey_isSome db name q.1 q.2
    | cons r rs =>
      exact ih (Zset db name q.1 q.2) (by simp)

theorem lastScore_append_single (l : List (Bytes × Nat)) (m : Bytes) (s : Nat)
    (k : Bytes) :
    lastScore (l ++ [(m, s)]) k = if m = k then some s else lastScore l k := by
  induction l with
  | nil => simp [lastScore]
  | cons q rest ih =>
    obtain ⟨m0, s0⟩ := q
    rw [List.cons_append, lastScore, ih]
    by_cases h : m = k
    · simp [h]
    · simp [h, lastScore]

theorem lastScore_mem : ∀ {l : List (Bytes × Nat)} {m : Bytes} {s : Nat},
    lastScore l m = some s → (m, s) ∈ l := by
  intro l
  induction l with
  | nil => intro m s h; simp [lastScore] at h
  | cons q rest ih =>
    intro m s h
    obtain ⟨m0, s0⟩ := q
    rw [lastScore] at h
    rcases hr : lastScore rest m with _ | sr
    · rw [hr] at h
      simp at h
      by_cases he : m0 = m
      · simp [he] at h
        simp [he, h]
      · simp [he] at h
    · rw [hr] at h
      simp at h
      subst h
      exact List.mem_cons_of_mem _ (ih hr)

/-- Induction invariant for `Zset` call sequences: both buckets are
sorted, the member index stores exactly the encoded last score of every
member, and the score-index keys are exactly the composite keys of the
current member/score pairs. -/
def ZInv (ops : List (Bytes × Nat)) (p : Bucket × Bucket) : Prop :=
  SortedB p.1 ∧ SortedB p.2 ∧
  (∀ m, bget p.2 m = (lastScore ops m).map I2b) ∧
  (∀ k, k ∈ bkeys p.1 ↔ ∃ m s, lastScore ops m = some s ∧ k = I2b s ++ m)

theorem I2b_ne_nil (s : Nat) : I2b s ≠ [] := by
  intro h
  have := congrArg List.length h
  simp [I2b] at this

theorem composite_inj {s1 s2 : Nat} {m1 m2 : Bytes}
    (h : I2b s1 ++ m1 = I2b s2 ++ m2) : I2b s1 = I2b s2 ∧ m1 = m2 :=
  List.append_inj h (by simp [I2b])

theorem zinv_step (ops : List (Bytes × Nat)) (p : Bucket × Bucket)
    (m : Bytes) (s : Nat) (hs : s < w64) (hops : ∀ q ∈ ops, q.2 < w64)
    (hinv : ZInv ops p) :
    ZInv (ops ++ [(m, s)]) (zsetB p.1 p.2 m (I2b s)) := by
  obtain ⟨hs1, hs2, hget, hkeys⟩ := hinv
  rw [zsetB]
  rcases hold : bget p.2 m with _ | os
  · -- no previous score for m
    have hlast : lastScore ops m = none := by
      have := hget m
      rw [hold] at this
      rcases h : lastScore ops m with _ | s0
      · rfl
      · rw [h] at this
        simp at this
    simp only [hold, Option.getD_none]
    have hne : ¬ ([] : Bytes) = I2b s := fun h => I2b_ne_nil s h.symm
    rw [if_neg hne]
    simp only [Bconcat_pair]
    refine ⟨sortedB_bput hs1 _ _, sortedB_bput hs2 _ _, ?_, ?_⟩
    · intro m1
      by_cases hm : m1 = m
      · subst hm
        rw [bget_bput_self, lastScore_append_single, if_pos rfl]
        rfl
      · rw [bget_bput_ne _ _ _ _ hm, lastScore_append_single,
          if_neg (fun h => hm h.symm)]
        exact hget m1
    · intro k
      rw [show bkeys (bput p.1 (I2b s ++ m) []) =
            List.map Prod.fst (bput p.1 (I2b s ++ m) []) from rfl]
      rw [show (k ∈ List.map Prod.fst (bput p.1 (I2b s ++ m) [])) =
            (k ∈ bkeys (bput p.1 (I2b s ++ m) [])) from rfl]
      rw [mem_bkeys_bput]
      constructor
      · rintro (hk | hk)
        · exact ⟨m, s, by rw [lastScore_append_single, if_pos rfl], hk⟩
        · obtain ⟨m1, s1, hl1, hk1⟩ := (hkeys k).mp hk
          have hm : m1 ≠ m := by
            intro h
            subst h
            rw [hlast] at hl1
            exact Option.noConfusion hl1
          refine ⟨m1, s1, ?_, hk1⟩
          rw [lastScore_append_single, if_neg (fun h => hm h.symm)]
          exact hl1
      · rintro ⟨m1, s1, hl1, hk1⟩
        rw [lastScore_append_single] at hl1
        by_cases hm : m = m1
        · subst hm
          rw [if_pos rfl] at hl1
          obtain rfl : s = s1 := by
            have := Option.some.injEq s s1 ▸ hl1
            omega
          exact Or.inl hk1
        · rw [if_neg hm] at hl1
          exact Or.inr ((hkeys k).mpr ⟨m1, s1, hl1, hk1⟩)
  · -- previous score os = I2b s0
    have hsome : ∃ s0, lastScore ops m = some s0 ∧ os = I2b s0 := by
      have := hget m
      rw [hold] at this
      rcases h : lastScore ops m with _ | s0
      · rw [h] at this
        simp at this
      · rw [h] at this
        simp at this
        exact ⟨s0, rfl, this⟩
    obtain ⟨s0, hl0, rfl⟩ := hsome
    have hs0 : s0 < w64 := hops (m, s0) (lastScore_mem hl0)
    simp only [hold, Option.getD_some]
    by_cases heq : I2b s0 = I2b s
    · -- unchanged: same score written again
      rw [if_pos heq]
      obtain rfl : s0 = s := I2b_inj hs0 hs heq
      refine ⟨hs1, hs2, ?_, ?_⟩
      · intro m1
        rw [lastScore_append_single]
        by_cases hm : m = m1
        · subst hm
          rw [if_pos rfl, hget m, hl0]
        · rw [if_neg hm]
          exact hget m1
      · intro k
        rw [hkeys k]
        constructor
        · rintro ⟨m1, s1, hl1, hk1⟩
          by_cases hm : m = m1
          · subst hm
            refine ⟨m, s1, ?_, hk1⟩
            rw [lastScore_append_single, if_pos rfl, ← hl0]
            exact hl1
          · exact ⟨m1, s1, by rw [lastScore_append_single, if_neg hm]; exact hl1, hk1⟩
        · rintro ⟨m1, s1, hl1, hk1⟩
          rw [lastScore_append_single] at hl1
          by_cases hm : m = m1
          · subst hm
            rw [if_pos rfl] at hl1
            obtain rfl : s0 = s1 := by simpa using hl1
            exact ⟨m, s0, hl0, hk1⟩
          · rw [if_neg hm] at hl1
            exact ⟨m1, s1, hl1, hk1⟩
    · -- score changed: put both, delete the stale composite
      rw [if_neg heq]
      simp only [Bconcat_pair]
      have hsort1a : SortedB (bput p.1 (I2b s ++ m) []) := sortedB_bput hs1 _ _
      refine ⟨sortedB_bdel hsort1a _, sortedB_bput hs2 _ _, ?_, ?_⟩
      · intro m1
        by_cases hm : m1 = m
        · subst hm
          rw [bget_bput_self, lastScore_append_single, if_pos rfl]
          rfl
        · rw [bget_bput_ne _ _ _ _ hm, lastScore_append_single,
            if_neg (fun h => hm h.symm)]
          exact hget m1
      · intro k
        rw [show bkeys (bdel (bput p.1 (I2b s ++ m) []) (I2b s0 ++ m)) =
              List.map Prod.fst (bdel (bput p.1 (I2b s ++ m) []) (I2b s0 ++ m)) from rfl]
        rw [show (k ∈ List.map Prod.fst (bdel (bput p.1 (I2b s ++ m) []) (I2b s0 ++ m))) =
              (k ∈ bkeys (bdel (bput p.1 (I2b s ++ m) []) (I2b s0 ++ m))) from rfl]
        rw [mem_bkeys_bdel hsort1a, mem_bkeys_bput]
        constructor
        · rintro ⟨hk | hk, hne⟩
          · exact ⟨m, s, by rw [lastScore_append_single, if_pos rfl], hk⟩
          · obtain ⟨m1, s1, hl1, hk1⟩ := (hkeys k).mp hk
            by_cases hm : m1 = m
            · subst hm
              rw [hl0] at hl1
              obtain rfl : s0 = s1 := by simpa using hl1
              exact absurd hk1 hne
            · exact ⟨m1, s1, by rw [lastScore_append_single,
                if_neg (fun h => hm h.symm)]; exact hl1, hk1⟩
        · rintro ⟨m1, s1, hl1, hk1⟩
          rw [lastScore_append_single] at hl1
          by_cases hm : m = m1
          · subst hm
            rw [if_pos rfl] at hl1
            obtain rfl : s = s1 := by simpa using hl1
            refine ⟨Or.inl hk1, ?_⟩
            intro hbad
            rw [hk1] at hbad
            obtain ⟨hsc, _⟩ := composite_inj hbad
            exact heq hsc.symm
          · rw [if_neg hm] at hl1
            refine ⟨Or.inr ((hkeys k).mpr ⟨m1, s1, hl1, hk1⟩), ?_⟩
            intro hbad
            rw [hk1] at hbad
            obtain ⟨_, hmm⟩ := composite_inj hbad
            exact hm hmm.symm

theorem zinv_fold (ops : List (Bytes × Nat)) (hops : ∀ q ∈ ops, q.2 < w64) :
    ZInv ops (zsetFoldPair ([], []) ops) := by
  induction ops using List.reverseRecOn with
  | nil =>
    refine ⟨by simp [zsetFoldPair, SortedB], by simp [zsetFoldPair, SortedB], ?_, ?_⟩
    · intro m
      simp [zsetFoldPair, bget, lastScore]
    · intro k
      simp [zsetFoldPair, bkeys, lastScore]
  | append_singleton rest q ih =>
    obtain ⟨m, s⟩ := q
    have hrest : ∀ r ∈ rest, r.2 < w64 := fun r hr => hops r (by simp [hr])
    have hstep := zinv_step rest (zsetFoldPair ([], []) rest) m s
      (hops (m, s) (by simp)) hrest (ih hrest)
    rw [zsetFoldPair, List.foldl_append]
    exact hstep

/-! ### Scan evaluation lemmas -/

/-- Output layout of a fully-collected sorted-set scan over entries. -/
def scanData : List (Bytes × Bytes) → List Bytes
  | [] => []
  | (k, _) :: rest => k.drop 8 :: k.take 8 :: scanData rest

/-- Decoded member/score pairs of a score-index bucket. -/
def decodePairs (l : List (Bytes × Bytes)) : List (Bytes × Nat) :=
  l.map (fun kv => (kv.1.drop 8, (B2i (kv.1.take 8)).getD 0))

theorem take8_composite (s : Nat) (m : Bytes) : (I2b s ++ m).take 8 = I2b s := by
  rw [show (8 : Nat) = (I2b s).length from rfl]
  exact List.take_left (I2b s) m

theorem drop8_composite (s : Nat) (m : Bytes) : (I2b s ++ m).drop 8 = m := by
  rw [show (8 : Nat) = (I2b s).length from rfl]
  exact List.drop_left (I2b s) m

theorem dropWhile_eq_self_of {α : Type} (p : α → Bool) (l : List α)
    (h : ∀ x ∈ l, p x = false) : l.dropWhile p = l := by
  cases l with
  | nil => rfl
  | cons x xs =>
    rw [List.dropWhile_cons, h x (by simp)]
    simp

theorem zscanLoop_all (want : Int) :
    ∀ (l : List (Bytes × Bytes)) (start : Bytes) (n : Nat),
    (∀ kv ∈ l, bcompare kv.1 start = want ∧ 8 ≤ kv.1.length) →
    zscanLoop want l start 0 n = some (scanData l) := by
  intro l
  induction l with
  | nil => intro start n _; rfl
  | cons kv rest ih =>
    intro start n h
    obtain ⟨k, v⟩ := kv
    obtain ⟨hc, hl⟩ := h (k, v) (by simp)
    rw [zscanLoop, if_pos hc, if_pos hl, if_neg (by omega)]
    rw [ih start (n + 1) (fun q hq => h q (by simp [hq]))]
    rfl

theorem scanData_eq_pairsData (l : List (Bytes × Bytes))
    (h : ∀ kv ∈ l, ∃ m s, s < w64 ∧ kv.1 = I2b s ++ m) :
    scanData l = pairsData (decodePairs l) := by
  induction l with
  | nil => rfl
  | cons kv rest ih =>
    obtain ⟨k, v⟩ := kv
    obtain ⟨m, s, hs, hk⟩ := h (k, v) (by simp)
    simp only at hk
    subst hk
    rw [scanData, decodePairs, List.map_cons]
    simp only [take8_composite, drop8_composite, B2i_I2b s hs, Option.getD_some,
      pairsData]
    exact congrArg (fun t => m :: I2b s :: t) (ih (fun q hq => h q (by simp [hq])))

theorem decodePairs_reverse (l : List (Bytes × Bytes)) :
    decodePairs l.reverse = (decodePairs l).reverse := by
  simp [decodePairs]

theorem pairwise_decodePairs (l : List (Bytes × Bytes)) (hs : List.Pairwise
      (fun p q => bcompare p.1 q.1 = -1) l)
    (h : ∀ kv ∈ l, ∃ m s, s < w64 ∧ kv.1 = I2b s ++ m) :
    List.Pairwise pairLt (decodePairs l) := by
  rw [decodePairs, List.pairwise_map]
  refine List.Pairwise.imp_of_mem ?_ hs
  intro a b ha hb hcmp
  obtain ⟨m1, s1, hs1, hk1⟩ := h a ha
  obtain ⟨m2, s2, hs2, hk2⟩ := h b hb
  rw [hk1, hk2] at hcmp ⊢
  rw [take8_composite, drop8_composite, take8_composite, drop8_composite,
    B2i_I2b s1 hs1, B2i_I2b s2 hs2]
  rw [bcompare_append_congr m1 m2 (by simp [I2b])] at hcmp
  by_cases hz : bcompare (I2b s1) (I2b s2) = 0
  · have : I2b s1 = I2b s2 := bcompare_eq_zero_iff.mp hz
    obtain rfl : s1 = s2 := I2b_inj hs1 hs2 this
    rw [if_pos hz] at hcmp
    exact Or.inr ⟨rfl, hcmp⟩
  · rw [if_neg hz] at hcmp
    exact Or.inl (lt_of_bcompare_I2b hs1 hs2 hcmp)

theorem Bconcat_single_nil (a : Bytes) : Bconcat [a, []] = a := by
  simp [Bconcat]

theorem Zscan_default (db : DB) (name : Bytes) (b : Bucket)
    (hdb : dbGet db (zkeyName name) = some b)
    (hcond : ∀ kv ∈ b, bcompare kv.1 (I2b scoreMin) = 1 ∧ 8 ≤ kv.1.length) :
    Zscan db name [] [] 0 =
      some { State := if (scanData b).isEmpty then "error" else "ok",
             Data := scanData b } := by
  rw [Zscan]
  simp only [List.length_nil, lt_irrefl, if_false, hdb]
  rw [dropWhile_eq_self_of _ b (fun kv hkv => by
    simp only [decide_eq_false_iff_not]
    intro hc
    have := (hcond kv hkv).1
    omega)]
  rw [Bconcat_single_nil]
  rw [zscanLoop_all 1 b (I2b scoreMin) 0 hcond]

theorem Zrscan_default (db : DB) (name : Bytes) (b : Bucket)
    (hdb : dbGet db (zkeyName name) = some b)
    (hcond : ∀ kv ∈ b, bcompare kv.1 (I2b scoreMax ++ [255]) = -1 ∧ 8 ≤ kv.1.length) :
    Zrscan db name [] [] 0 =
      some { State := if (scanData b.reverse).isEmpty then "error" else "ok",
             Data := scanData b.reverse } := by
  rw [Zrscan]
  simp only [List.length_nil, lt_irrefl, if_false, hdb]
  rw [Bconcat_pair]
  rw [zscanLoop_all (-1) b.reverse (I2b scoreMax ++ [255]) 0
    (fun kv hkv => hcond kv (List.mem_reverse.mp hkv))]

theorem lastScore_exists_of_ne_nil (ops : List (Bytes × Nat)) (hne : ops ≠ []) :
    ∃ m s, lastScore ops m = some s := by
  rcases List.eq_nil_or_concat ops with rfl | ⟨l, q, rfl⟩
  · exact absurd rfl hne
  · obtain ⟨m, s⟩ := q
    refine ⟨m, s, ?_⟩
    rw [List.concat_eq_append, lastScore_append_single, if_pos rfl]

theorem scanData_ne_nil {l : List (Bytes × Bytes)} (h : l ≠ []) :
    (scanData l).isEmpty = false := by
  cases l with
  | nil => exact absurd rfl h
  | cons kv rest =>
    obtain ⟨k, v⟩ := kv
    rfl

/-- Main ordering result behind claim C6: after any nonempty sequence of
`Zset` calls whose composite keys stay strictly between the two default
scan sentinels, the default forward scan returns every current pair in
strictly ascending `(score, member)` order and the default reverse scan
returns exactly the reversed sequence. -/
theorem zscan_zrscan_ordering (name : Bytes) (ops : List (Bytes × Nat))
    (hne : ops ≠ [])
    (hops : ∀ q ∈ ops, q.2 < w64 ∧
      bcompare (I2b q.2 ++ q.1) (I2b scoreMin) = 1 ∧
      bcompare (I2b q.2 ++ q.1) (I2b scoreMax ++ [255]) = -1) :
    ∃ ps : List (Bytes × Nat),
      Zscan (foldZset dbEmpty name ops) name [] [] 0 =
        some { State := "ok", Data := pairsData ps } ∧
      Zrscan (foldZset dbEmpty name ops) name [] [] 0 =
        some { State := "ok", Data := pairsData ps.reverse } ∧
      List.Pairwise pairLt ps ∧
      (∀ m s, (m, s) ∈ ps ↔ lastScore ops m = some s) := by
  obtain ⟨hsort1, hsort2, hget, hkeys⟩ :=
    zinv_fold ops (fun q hq => (hops q hq).1)
  have hbuck := foldZset_buckets name ops dbEmpty
  have hb1 : getBucket (foldZset dbEmpty name ops) (zkeyName name) =
      (zsetFoldPair ([], []) ops).1 := congrArg Prod.fst hbuck
  obtain ⟨b, hdb⟩ := foldZset_zkey_present name ops dbEmpty hne
  have hbP : b = (zsetFoldPair ([], []) ops).1 := by
    rw [getBucket, hdb] at hb1
    simpa using hb1
  rw [← hbP] at hsort1 hkeys
  have hentry : ∀ kv ∈ b, ∃ m s, lastScore ops m = some s ∧ s < w64 ∧
      kv.1 = I2b s ++ m := by
    intro kv hkv
    have hk : kv.1 ∈ bkeys b := List.mem_map_of_mem Prod.fst hkv
    obtain ⟨m, s, hl, hke⟩ := (hkeys kv.1).mp hk
    exact ⟨m, s, hl, (hops (m, s) (lastScore_mem hl)).1, hke⟩
  have hcond1 : ∀ kv ∈ b, bcompare kv.1 (I2b scoreMin) = 1 ∧ 8 ≤ kv.1.length := by
    intro kv hkv
    obtain ⟨m, s, hl, hs, hke⟩ := hentry kv hkv
    rw [hke]
    refine ⟨(hops (m, s) (lastScore_mem hl)).2.1, ?_⟩
    simp [I2b]
  have hcond2 : ∀ kv ∈ b, bcompare kv.1 (I2b scoreMax ++ [255]) = -1 ∧
      8 ≤ kv.1.length := by
    intro kv hkv
    obtain ⟨m, s, hl, hs, hke⟩ := hentry kv hkv
    rw [hke]
    refine ⟨(hops (m, s) (lastScore_mem hl)).2.2, ?_⟩
    simp [I2b]
  have hbne : b ≠ [] := by
    obtain ⟨m, s, hl⟩ := lastScore_exists_of_ne_nil ops hne
    have : I2b s ++ m ∈ bkeys b := (hkeys _).mpr ⟨m, s, hl, rfl⟩
    intro hb
    rw [hb] at this
    simp [bkeys] at this
  have hdec : ∀ kv ∈ b, ∃ m s, s < w64 ∧ kv.1 = I2b s ++ m := by
    intro kv hkv
    obtain ⟨m, s, _, hs, hke⟩ := hentry kv hkv
    exact ⟨m, s, hs, hke⟩
  refine ⟨decodePairs b, ?_, ?_, ?_, ?_⟩
  · rw [Zscan_default _ _ _ hdb hcond1, scanData_ne_nil hbne,
      scanData_eq_pairsData b hdec]
    simp
  · rw [Zrscan_default _ _ _ hdb hcond2,
      scanData_ne_nil (fun h => hbne (List.reverse_eq_nil_iff.mp h)),
      scanData_eq_pairsData b.reverse
        (fun kv hkv => hdec kv (List.mem_reverse.mp hkv)),
      decodePairs_reverse]
    simp
  · exact pairwise_decodePairs b hsort1 hdec
  · intro m s
    constructor
    · intro hmem
      obtain ⟨kv, hkv, heq⟩ := List.mem_map.mp hmem
      obtain ⟨m1, s1, hl1, hs1, hke⟩ := hentry kv hkv
      rw [hke, take8_composite, drop8_composite, B2i_I2b s1 hs1,
        Option.getD_some] at heq
      simp only [Prod.mk.injEq] at heq
      obtain ⟨rfl, rfl⟩ := heq
      exact hl1
    · intro hl
      have hs : s < w64 := (hops (m, s) (lastScore_mem hl)).1
      have hk : I2b s ++ m ∈ bkeys b := (hkeys _).mpr ⟨m, s, hl, rfl⟩
      obtain ⟨kv, hkv, hfst⟩ := List.mem_map.mp hk
      refine List.mem_map.mpr ⟨kv, hkv, ?_⟩
      rw [hfst, take8_composite, drop8_composite, B2i_I2b s hs, Option.getD_some]

/-! ### Helper lemmas for the decoder claims -/

theorem B2i_none_of_short : ∀ {v : Bytes}, v.length < 8 → B2i v = none := by
  intro v hv
  rcases v with _ | ⟨b0, _ | ⟨b1, _ | ⟨b2, _ | ⟨b3, _ | ⟨b4, _ | ⟨b5, _ |
    ⟨b6, _ | ⟨b7, rest⟩⟩⟩⟩⟩⟩⟩⟩
  all_goals first
    | rfl
    | (simp at hv; omega)

theorem toInt64_zero : toInt64 0 = 0 := by norm_num [toInt64]

/-! ### Claim theorems -/

/-- Store left by `Zset("s","m",5)` followed by `Zincr("s","m",0)`: the
score index of set `s` (bucket `[31,115]`) is empty while the member index
(bucket `[29,115]`) still maps member `m` to the encoded score 5. -/
def zincrZeroResult : DB := [([31, 115], []), ([29, 115], [([109], I2b 5)])]

/-- Claim C1 (code_bug): the sorted-set consistency invariant is supposed
to hold after every `Zset`/`Zmset`/`Zincr`/`Zdel` call, but evaluating the
code on `Zset("s","m",5)` followed by `Zincr("s","m",0)` leaves the member
index holding `m ↦ 5` while the score index has no entry at all: `Zincr`
writes `newKey` and then deletes `oldScore‖key`, which is the same key when
the step is 0, orphaning the member entry. -/
theorem C1_zincr_step_zero_breaks_invariant :
    Zincr (Zset dbEmpty [115] [109] 5) [115] [109] 0 =
      some (Except.ok (zincrZeroResult, 5)) ∧
    getBucket zincrZeroResult (zkeyName [115]) = [] ∧
    bget (getBucket zincrZeroResult (zscoreName [115])) [109] = some (I2b 5) ∧
    ¬ zConsistent (getBucket zincrZeroResult (zkeyName [115]))
        (getBucket zincrZeroResult (zscoreName [115])) :=
  ⟨by decide, by decide, by decide, by decide⟩

/-- Claim C2 (code_bug): `Hrscan` on an existing namespace holding a key
strictly below the start key should return an `ok` reply listing the pairs;
instead the inverted `if err == nil { r.State = err.Error() }` dereferences
a nil error on every successful underlying read (modelled `none`), and on
an absent namespace the reply keeps the generic `error` state instead of
`bucket_not_found`. -/
theorem C2_hrscan_panics_on_success :
    Hrscan (Hset dbEmpty [104] [97] [49]) [104] [98] 10 = none ∧
    Hrscan dbEmpty [104] [98] 10 = some { State := "error", Data := [] } :=
  ⟨by decide, by decide⟩

/-- Claim C3 (counterexample): the claim says every decoder returns a zero
value on short input; but `B2i` on a 3-byte input panics (the model's
`none`) rather than producing `some 0`, and `Reply.JSON` on an empty data
list panics on the `r.Data[0]` index. -/
theorem C3_short_input_panics :
    B2i [0, 0, 0] = none ∧ B2i [0, 0, 0] ≠ some 0 ∧
    Reply.json { State := "ok", Data := [] } = none :=
  ⟨by decide, by decide, by decide⟩

/-- Claim C3 (amended): the length-guarded decoders do degrade to
zero/empty values — `String`, `Int`, `Int64`, `Uint`, `Uint64`, `List` and
`Dict` on a reply with no data, `Uint64`/`Int64` on a first element shorter
than 8 bytes, and `bs.Uint64` on short bytes — but `B2i` itself panics on
inputs shorter than 8 bytes and `Reply.JSON` panics on empty data. -/
theorem C3_lenient_decoders (r r2 : Reply) (v : Bytes)
    (hr : r.Data = []) (h2 : r2.Data = [v]) (hv : v.length < 8) :
    r.str = [] ∧ r.uint64 = 0 ∧ r.uint = 0 ∧ r.int = 0 ∧ r.int64 = 0 ∧
    r.list = [] ∧ r.dict = [] ∧ r.json = none ∧
    r2.uint64 = 0 ∧ r2.int64 = 0 ∧ bsUint64 v = 0 ∧ B2i v = none := by
  refine ⟨?_, ?_, ?_, ?_, ?_, ?_, ?_, ?_, ?_, ?_, ?_, ?_⟩
  · simp [Reply.str, hr]
  · simp [Reply.uint64, hr]
  · simp [Reply.uint, Reply.uint64, hr]
  · simp [Reply.int, Reply.uint64, hr, toInt64_zero]
  · simp [Reply.int64, hr]
  · simp [Reply.list, hr, pairUp]
  · simp [Reply.dict, hr, pairUp]
  · simp [Reply.json, hr]
  · simp [Reply.uint64, h2, hv]
  · simp [Reply.int64, h2, Reply.uint64, hv, toInt64_zero]
  · simp [bsUint64, hv]
  · exact B2i_none_of_short hv

/-- Witness for C3: the lenient decoders evaluated at a reply with no data
and at the 3-byte input `[1,2,3]`. -/
theorem C3_lenient_decoders_witness :
    ({ State := "ok", Data := [] } : Reply).str = [] ∧
    ({ State := "ok", Data := [] } : Reply).uint64 = 0 ∧
    ({ State := "ok", Data := [] } : Reply).uint = 0 ∧
    ({ State := "ok", Data := [] } : Reply).int = 0 ∧
    ({ State := "ok", Data := [] } : Reply).int64 = 0 ∧
    ({ State := "ok", Data := [] } : Reply).list = [] ∧
    ({ State := "ok", Data := [] } : Reply).dict = [] ∧
    ({ State := "ok", Data := [] } : Reply).json = none ∧
    ({ State := "ok", Data := [[1, 2, 3]] } : Reply).uint64 = 0 ∧
    ({ State := "ok", Data := [[1, 2, 3]] } : Reply).int64 = 0 ∧
    bsUint64 [1, 2, 3] = 0 ∧ B2i [1, 2, 3] = none :=
  C3_lenient_decoders _ _ [1, 2, 3] rfl rfl (by decide)

/-- Claim C4 (confirmed): incrementing a stored score of `2^64 - 1` by any
positive step fails with the overflow error, and the aborted transaction
leaves the store — for `Zincr`, both index namespaces — unchanged (the
error is returned before any write, and an error return rolls the
transaction back). -/
theorem C4_incr_overflow_guard (db1 db2 : DB) (name key : Bytes) (step : Nat)
    (h1 : 1 ≤ step) (h2 : step < w64)
    (hs : bget (getBucket db1 (hashName name)) key = some (I2b scoreMax))
    (hz : bget (getBucket db2 (zscoreName name)) key = some (I2b scoreMax)) :
    Hincr db1 name key step = some (Except.error "overflow number") ∧
    Zincr db2 name key step = some (Except.error "overflow number") := by
  have hmax : B2i (I2b scoreMax) = some scoreMax :=
    B2i_I2b scoreMax (by norm_num [scoreMax, w64])
  have hcut : goSub scoreMax step < scoreMax := by
    simp only [goSub, scoreMax, w64] at *
    omega
  constructor
  · simp only [Hincr, hs, hmax, hincrCore]
    rw [if_pos (by omega), if_pos hcut]
  · simp only [Zincr, hz, hmax, zincrCore]
    rw [if_pos (by omega), if_pos hcut]

/-- Witness for C4: both increments on a stored `2^64 - 1` with step 1
return the overflow error. -/
theorem C4_incr_overflow_guard_witness :
    Hincr (Hset dbEmpty [104] [107] (I2b scoreMax)) [104] [107] 1 =
      some (Except.error "overflow number") ∧
    Zincr (Zset dbEmpty [104] [107] scoreMax) [104] [107] 1 =
      some (Except.error "overflow number") :=
  C4_incr_overflow_guard (Hset dbEmpty [104] [107] (I2b scoreMax))
    (Zset dbEmpty [104] [107] scoreMax) [104] [107] 1 (by decide) (by decide)
    (by decide) (by decide)

/-- Claim C5 (counterexample): with stored value 5 and the step `2^64 - 3`
encoding -3, the claim expects success with result 2; the code instead
fails with the overflow error (the check `scoreMax - step < oldNum`
computes `2 < 5` and fires). -/
theorem C5_wraparound_step_counterexample :
    Hincr (Hset dbEmpty [104] [107] (I2b 5)) [104] [107] (w64 - 3) =
      some (Except.error "overflow number") ∧
    Hincr (Hset dbEmpty [104] [107] (I2b 5)) [104] [107] (w64 - 3) ≠
      some (Except.ok
        (Hset (Hset dbEmpty [104] [107] (I2b 5)) [104] [107] (I2b 2), 2)) :=
  ⟨by decide, by decide⟩

/-- Claim C5 (amended): a step encoding the negative magnitude `-d` as
`2^64 - d` with `1 ≤ d ≤ v` is rejected, not supported: the
subtraction-comparison check `scoreMax - step < v` computes `d - 1 < v`
and always fires, so `Hincr` and `Zincr` fail with the overflow error and
the aborted transaction leaves the stored value unchanged. -/
theorem C5_wraparound_step_rejected (db1 db2 : DB) (name key : Bytes)
    (v d : Nat) (hv : v < w64) (hd1 : 1 ≤ d) (hdv : d ≤ v)
    (hs : bget (getBucket db1 (hashName name)) key = some (I2b v))
    (hz : bget (getBucket db2 (zscoreName name)) key = some (I2b v)) :
    Hincr db1 name key (w64 - d) = some (Except.error "overflow number") ∧
    Zincr db2 name key (w64 - d) = some (Except.error "overflow number") := by
  have hvv : B2i (I2b v) = some v := B2i_I2b v hv
  have hpos : 0 < w64 - d := by
    simp only [w64] at *
    omega
  have hcut : goSub scoreMax (w64 - d) < v := by
    simp only [goSub, scoreMax, w64] at *
    omega
  constructor
  · simp only [Hincr, hs, hvv, hincrCore]
    rw [if_pos hpos, if_pos hcut]
  · simp only [Zincr, hz, hvv, zincrCore]
    rw [if_pos hpos, if_pos hcut]

/-- Witness for C5 (amended): stored value 5, step `2^64 - 3`: both
increments fail with the overflow error. -/
theorem C5_wraparound_step_rejected_witness :
    Hincr (Hset dbEmpty [104] [108] (I2b 5)) [104] [108] (w64 - 3) =
      some (Except.error "overflow number") ∧
    Zincr (Zset dbEmpty [104] [108] 5) [104] [108] (w64 - 3) =
      some (Except.error "overflow number") :=
  C5_wraparound_step_rejected (Hset dbEmpty [104] [108] (I2b 5))
    (Zset dbEmpty [104] [108] 5) [104] [108] 5 3 (by decide) (by decide)
    (by decide) (by decide) (by decide)

/-- Claim C6 (counterexample): a set holding only member `[255]` at score
`2^64 - 1` — a composite key not strictly below the reverse-scan sentinel
`scoreMax‖255` — is returned by the default forward scan but silently
dropped by the default reverse scan, so the reverse scan is not the exact
reverse of the forward one. -/
theorem C6_reverse_boundary_counterexample :
    Zscan (Zset dbEmpty [115] [255] scoreMax) [115] [] [] 0 =
      some { State := "ok", Data := [[255], I2b scoreMax] } ∧
    Zrscan (Zset dbEmpty [115] [255] scoreMax) [115] [] [] 0 =
      some { State := "error", Data := [] } ∧
    Zrscan (Zset dbEmpty [115] [255] scoreMax) [115] [] [] 0 ≠
      some { State := "ok", Data := [[255], I2b scoreMax] } :=
  ⟨by decide, by decide, by decide⟩

/-- Witness for C6 (amended): three `Zset` calls inserted out of order;
the default forward and reverse scans return the pairs ascending and
descending respectively, covering exactly the final member scores. -/
theorem C6_ordering_witness :
    ∃ ps : List (Bytes × Nat),
      Zscan (foldZset dbEmpty [115] [([98], 5), ([97], 9), ([97], 2)])
        [115] [] [] 0 = some { State := "ok", Data := pairsData ps } ∧
      Zrscan (foldZset dbEmpty [115] [([98], 5), ([97], 9), ([97], 2)])
        [115] [] [] 0 = some { State := "ok", Data := pairsData ps.reverse } ∧
      List.Pairwise pairLt ps ∧
      (∀ m s, (m, s) ∈ ps ↔
        lastScore [([98], 5), ([97], 9), ([97], 2)] m = some s) :=
  zscan_zrscan_ordering [115] [([98], 5), ([97], 9), ([97], 2)]
    (by decide) (by decide)

/-- Claim C7 (confirmed, spec-modelled): `HdelBucket` drops the whole
`hash:<name>` namespace and does nothing — in particular reports no
error — when the namespace is absent.  The drop primitive itself (bolt's
`tx.DeleteBucket`) is outside src/ and is modelled from the spec's
contract. -/
theorem C7_hdelbucket_drop_noop (db : DB) (name : Bytes) :
    dbGet (HdelBucket db name) (hashName name) = none ∧
    (dbGet db (hashName name) = none → HdelBucket db name = db) := by
  constructor
  · exact dbGet_dbDel_self db (hashName name)
  · intro h
    exact dbDel_absent db (hashName name) h

/-- Witness for C7: dropping the populated namespace `h` removes it;
dropping it on an empty store is the identity. -/
theorem C7_hdelbucket_witness :
    dbGet (HdelBucket (Hset dbEmpty [104] [107] [118]) [104])
      (hashName [104]) = none ∧
    HdelBucket dbEmpty [104] = dbEmpty :=
  ⟨(C7_hdelbucket_drop_noop (Hset dbEmpty [104] [107] [118]) [104]).1,
   (C7_hdelbucket_drop_noop dbEmpty [104]).2 (by decide)⟩

/-- Claim C8 (counterexample): the reply for a missing key carries the
literal status `key_not_found` (the Go constant `keyNotFound`), not the
claimed `not_found` (the unused constant `replyNotFound`). -/
theorem C8_status_counterexample :
    (Hget (Hset dbEmpty [104] [107, 49] [118, 49]) [104]
      [109, 105, 115, 115, 105, 110, 103]).State = "key_not_found" ∧
    (Hget (Hset dbEmpty [104] [107, 49] [118, 49]) [104]
      [109, 105, 115, 115, 105, 110, 103]).State ≠ "not_found" :=
  ⟨by decide, by decide⟩

/-- Claim C8 (amended): after `Hset("h","k1","v1")`, `Hget("h","k1")`
returns status `ok` with value `"v1"`; `Hget("h","missing")` returns the
key-absent status, whose literal string is `key_not_found`; and `Hget`
against any absent namespace returns status `bucket_not_found`. -/
theorem C8_hget_status :
    Hget (Hset dbEmpty [104] [107, 49] [118, 49]) [104] [107, 49] =
      { State := "ok", Data := [[118, 49]] } ∧
    (Hget (Hset dbEmpty [104] [107, 49] [118, 49]) [104]
      [109, 105, 115, 115, 105, 110, 103]).State = "key_not_found" ∧
    (∀ (db : DB) (name key : Bytes), dbGet db (hashName name) = none →
      (Hget db name key).State = "bucket_not_found") := by
  refine ⟨by decide, by decide, ?_⟩
  intro db name key h
  simp only [Hget, h]

/-- Witness for C8: `Hget` on the empty store reports the missing
namespace. -/
theorem C8_hget_status_witness :
    (Hget dbEmpty [104] [107]).State = "bucket_not_found" :=
  C8_hget_status.2.2 dbEmpty [104] [107] rfl

/-- Claim C9 (confirmed): decoding the 8-byte big-endian encoding returns
the encoded number, for every value in `[0, 2^64 - 1]`. -/
theorem C9_roundtrip (x : Nat) (hx : x ≤ scoreMax) : B2i (I2b x) = some x :=
  B2i_I2b x (by simp only [scoreMax, w64] at *; omega)

/-- Witness for C9: the round trip at 123456. -/
theorem C9_roundtrip_witness : B2i (I2b 123456) = some 123456 :=
  C9_roundtrip 123456 (by decide)

/-- Claim C10 (confirmed): `Zmset` accepts the 2-byte raw score `"ab"` for
member `"c"` without validation, storing the 3-byte composite key `"abc"`;
the following default `Zscan` reaches that key, and its fixed-width
decomposition `k[8:]`/`k[0:8]` is a slice out of range on a key shorter
than 8 bytes — a panic, modelled `none`. -/
theorem C10_zmset_short_score_zscan_panic :
    Zmset dbEmpty [115] [[99], [97, 98]] =
      Except.ok [([31, 115], [([97, 98, 99], [])]),
                 ([29, 115], [([99], [97, 98])])] ∧
    Zscan [([31, 115], [([97, 98, 99], [])]), ([29, 115], [([99], [97, 98])])]
      [115] [] [] 10 = none :=
  ⟨by decide, by decide⟩
